import Mathlib

/-!
Shallow embedding of the clean_vglc repository (two Python source files,
src/renderer.py and src/split.py) together with proofs about the embedded
definitions.

Python strings are modelled as `List Char`; a multi-line level string is a
single `List Char` containing newline characters.  PIL images are modelled by
`Img` (a width, a height and a total pixel function); `Image.paste` with an
RGBA mask is modelled by alpha blending with PIL's MULDIV255 rounding.
-/

set_option maxHeartbeats 1000000

/-- RGBA pixel, channels in 0..255. -/
structure Pix where
  r : Nat
  g : Nat
  b : Nat
  a : Nat
deriving DecidableEq

/-! ## Python string primitives -/

/-- Characters stripped by Python str.strip() with no argument
(ASCII whitespace: space, tab, newline, carriage return, vertical tab,
form feed). -/
def isPySpace (c : Char) : Bool :=
  c = ' ' || c = '\t' || c = '\n' || c = '\r' || c = '\x0b' || c = '\x0c'

/-- Python s.strip(): remove leading and trailing whitespace. -/
def pyStrip (l : List Char) : List Char :=
  ((l.dropWhile isPySpace).reverse.dropWhile isPySpace).reverse

/-- Python s.strip(chr(10)): remove leading and trailing newline characters
(used by split.py line 19). -/
def stripNL (l : List Char) : List Char :=
  ((l.dropWhile (· = '\n')).reverse.dropWhile (· = '\n')).reverse

/-- Python s.split(sep) for a single-character separator: always returns at
least one piece, empty pieces included. -/
def pySplit (sep : Char) : List Char → List (List Char)
  | [] => [[]]
  | c :: cs =>
    if c = sep then [] :: pySplit sep cs
    else
      match pySplit sep cs with
      | r :: rs => (c :: r) :: rs
      | [] => [[c]]

/-- Python sep.join(rows) for a single-character separator. -/
def pyJoin (sep : Char) : List (List Char) → List Char
  | [] => []
  | [r] => r
  | r :: rs => r ++ sep :: pyJoin sep rs

/-- Python slice l[a:b] for nonnegative bounds. -/
def pySlice (l : List α) (a b : Nat) : List α :=
  (l.drop a).take (b - a)

/-- Python line.ljust(n): right-pad with spaces to length n. -/
def ljust (n : Nat) (l : List Char) : List Char :=
  l ++ List.replicate (n - l.length) ' '

/-- Python max(len(line) for line in lines); 0 on the empty list (Python
would raise there, but every caller in the sources passes a non-empty
list, since str.split always returns at least one piece). -/
def maxLen (ls : List (List Char)) : Nat :=
  ls.foldl (fun m l => max m l.length) 0

/-- Python line.index(m): index of the first occurrence (0 if absent;
Python would raise there, but the sources only call it after a membership
test). -/
def pyIndex (m : Char) : List Char → Nat
  | [] => 0
  | c :: cs => if c = m then 0 else pyIndex m cs + 1

/-! ## split.py : split_level -/

/-- The scan of split.py lines 28-39: walk the rows top to bottom and return
the column of the first occurrence of the marker in the first row that
contains it. -/
def findMarkerCol (m : Char) : List (List Char) → Option Nat
  | [] => none
  | l :: ls => if m ∈ l then some (pyIndex m l) else findMarkerCol m ls

/-- The error raised by split_level (split.py line 42), Python
ValueError with the message that the level must contain both markers. -/
inductive SplitError where
  | missingMarker
deriving DecidableEq

/-- split.py lines 19-25: strip newlines, split into rows, right-pad every
row with spaces to the maximal row length. -/
def paddedLines (s : List Char) : List (List Char) :=
  (pySplit '\n' (stripNL s)).map (ljust (maxLen (pySplit '\n' (stripNL s))))

/-- One emitted window (split.py lines 65-68): every row is
prefix_lines[i] ++ middle_lines[i][start:start+w] ++ suffix_lines[i], where
prefix_lines[i] = row[:sc+1], middle_lines[i] = row[sc+1:ec] and
suffix_lines[i] = row[ec:]. -/
def windowRows (padded : List (List Char)) (sc ec start w : Nat) : List (List Char) :=
  padded.map (fun l => l.take (sc + 1) ++ pySlice (pySlice l (sc + 1) ec) start (start + w) ++ l.drop ec)

/-- The loop of split.py lines 57-69: slide a window of width w across the
middle band in steps of w, emitting a window when it fits entirely
(start + w ≤ mw) and stopping at the first window that does not.  The
conjunct 1 ≤ w only serves termination of the Lean recursion: Python's
range raises for a zero step before this loop can run, and every verified
statement below assumes 1 ≤ w. -/
def splitWindows (padded : List (List Char)) (sc ec mw w start : Nat) : List (List (List Char)) :=
  if _h : 1 ≤ w ∧ start + w ≤ mw then
    windowRows padded sc ec start w :: splitWindows padded sc ec mw w (start + w)
  else []
termination_by mw - start
decreasing_by omega

/-- split.py lines 19-69 with the final newline-join left out: the emitted
partial levels as lists of rows. -/
def splitLevelRows (s : List Char) (w : Nat) : Except SplitError (List (List (List Char))) :=
  match findMarkerCol '{' (paddedLines s), findMarkerCol '}' (paddedLines s) with
  | some start_col, some end_col =>
    .ok (splitWindows (paddedLines s) start_col end_col (end_col - start_col - 1) w 0)
  | _, _ => .error .missingMarker

/-- split.py split_level: the emitted partial levels as newline-joined
strings (split.py line 69). -/
def split_level (s : List Char) (w : Nat) : Except SplitError (List (List Char)) :=
  match splitLevelRows s w with
  | .ok parts => .ok (parts.map (pyJoin '\n'))
  | .error e => .error e

/-! ## renderer.py : the PIL image model -/

/-- PIL image of mode RGBA: a width, a height and a total pixel function.
PIL pixels outside the bounds do not exist; the verified statements only
inspect coordinates inside the bounds. -/
structure Img where
  width : Nat
  height : Nat
  pix : Nat → Nat → Pix

/-- Pillow's MULDIV255 rounding of a*b/255, computed as in the Pillow
sources: with tmp = a*b + 128 the result is ((tmp div 256) + tmp) div 256. -/
def mulDiv255 (a b : Nat) : Nat :=
  ((a * b + 128) / 256 + (a * b + 128)) / 256

/-- Pillow's BLEND of one channel: destination d, source s, mask value m. -/
def blendChan (m d s : Nat) : Nat :=
  mulDiv255 d (255 - m) + mulDiv255 s m

/-- Blend every channel of a destination pixel with a source pixel under a
mask value (Image.paste with an RGBA mask blends all four channels). -/
def blendPix (m : Nat) (d s : Pix) : Pix :=
  ⟨blendChan m d.r s.r, blendChan m d.g s.g, blendChan m d.b s.b, blendChan m d.a s.a⟩

/-- PIL Image.new of mode RGBA: a solid fill. -/
def imageNew (w h : Nat) (c : Pix) : Img :=
  ⟨w, h, fun _ _ => c⟩

/-- PIL Image.resize with the NEAREST filter, modelled with center-point
sampling.  No verified statement depends on which in-bounds source pixel
NEAREST picks: the claims only resize tiles that already have the target
size or are constant. -/
def resizeNearest (src : Img) (w h : Nat) : Img :=
  ⟨w, h, fun x y => src.pix ((2 * x + 1) * src.width / (2 * w)) ((2 * y + 1) * src.height / (2 * h))⟩

/-- PIL Image.paste of src onto dst at offset (x0, y0) with src itself as
the mask, as in every paste of renderer.py: inside the pasted rectangle
each channel is blended with the source using the source's own alpha
channel as the mask value; outside it the destination is unchanged.  The
offsets are integers because the sprite pass can compute negative
coordinates (PIL clips them). -/
def pasteMask (dst src : Img) (x0 y0 : Int) : Img :=
  ⟨dst.width, dst.height, fun x y =>
    if 0 ≤ (x : Int) - x0 ∧ (x : Int) - x0 < (src.width : Int) ∧
        0 ≤ (y : Int) - y0 ∧ (y : Int) - y0 < (src.height : Int) then
      blendPix (src.pix ((x : Int) - x0).toNat ((y : Int) - y0).toNat).a (dst.pix x y)
        (src.pix ((x : Int) - x0).toNat ((y : Int) - y0).toNat)
    else dst.pix x y⟩

/-- The tiles dictionary: characters mapped to a PIL image or to None
(renderer.py load_tiles stores None for a missing file). -/
abbrev Tiles := List (Char × Option Img)

/-- renderer.py line 157. -/
def SPRITE_CHARS : List Char := ['E']

/-- renderer.py line 160: the initial solid sky-blue RGBA fill. -/
def skyFill : Pix := ⟨135, 206, 235, 255⟩

/-- The conditional resize of renderer.py lines 169-170, 178-179 and
185-186: a tile whose size differs from (tile_size, tile_size) is resized
to exactly that size with NEAREST. -/
def fitTile (t : Nat) (img : Img) : Img :=
  if img.width = t ∧ img.height = t then img else resizeNearest img t t

/-- renderer.py lines 166-172 (identical to lines 181-187): if the tiles
dict has a present entry for the background character, paste that tile,
fitted to tile size, at the cell's corner; otherwise do nothing. -/
def drawSkyAt (tiles : Tiles) (t : Nat) (out : Img) (row col : Nat) : Img :=
  match tiles.lookup '-' with
  | some (some sky) => pasteMask out (fitTile t sky) ((col * t : Nat) : Int) ((row * t : Nat) : Int)
  | _ => out

/-- The background-pass loop body for one cell (renderer.py lines 164-187):
sprite characters get the sky tile and nothing else; characters with a
present tile get that tile fitted to tile size; absent or unmapped
characters fall back to the sky tile. -/
def bgCellStep (tiles : Tiles) (t : Nat) (out : Img) (row col : Nat) (c : Char) : Img :=
  if c ∈ SPRITE_CHARS then drawSkyAt tiles t out row col
  else
    match tiles.lookup c with
    | some (some tile) => pasteMask out (fitTile t tile) ((col * t : Nat) : Int) ((row * t : Nat) : Int)
    | _ => drawSkyAt tiles t out row col

/-- The inner background-pass loop over one row (renderer.py line 164). -/
def bgRow (tiles : Tiles) (t row : Nat) : Img → Nat → List Char → Img
  | out, _, [] => out
  | out, col, c :: cs => bgRow tiles t row (bgCellStep tiles t out row col c) (col + 1) cs

/-- The outer background-pass loop over the rows (renderer.py line 163). -/
def bgRows (tiles : Tiles) (t : Nat) : Img → Nat → List (List Char) → Img
  | out, _, [] => out
  | out, row, l :: ls => bgRows tiles t (bgRow tiles t row out 0 l) (row + 1) ls

/-- The whole background pass (renderer.py lines 162-187). -/
def bgPass (tiles : Tiles) (t : Nat) (out : Img) (lines : List (List Char)) : Img :=
  bgRows tiles t out 0 lines

/-- The sprite-pass loop body for one cell (renderer.py lines 192-201):
a sprite character with a present tile image is pasted at its native size,
horizontally centered with Python floor division and bottom-anchored to
the cell's bottom edge, with the sprite itself as the paste mask. -/
def spriteCellStep (tiles : Tiles) (t : Nat) (out : Img) (row col : Nat) (c : Char) : Img :=
  if c ∈ SPRITE_CHARS then
    match tiles.lookup c with
    | some (some sprite) =>
      pasteMask out sprite
        ((col * t : Nat) + Int.fdiv ((t : Int) - (sprite.width : Int)) 2)
        ((((row + 1) * t : Nat) : Int) - (sprite.height : Int))
    | _ => out
  else out

/-- The inner sprite-pass loop over one row (renderer.py line 191). -/
def spriteRow (tiles : Tiles) (t row : Nat) : Img → Nat → List Char → Img
  | out, _, [] => out
  | out, col, c :: cs => spriteRow tiles t row (spriteCellStep tiles t out row col c) (col + 1) cs

/-- The outer sprite-pass loop over the rows (renderer.py line 190). -/
def spriteRows (tiles : Tiles) (t : Nat) : Img → Nat → List (List Char) → Img
  | out, _, [] => out
  | out, row, l :: ls => spriteRows tiles t (spriteRow tiles t row out 0 l) (row + 1) ls

/-- The whole sprite pass (renderer.py lines 189-201). -/
def spritePass (tiles : Tiles) (t : Nat) (out : Img) (lines : List (List Char)) : Img :=
  spriteRows tiles t out 0 lines

/-- renderer.py render_level (lines 134-203): strip the level string, split
into lines, create the sky-blue image of size (max line length * tile
size, line count * tile size), run the background pass, then the sprite
pass. -/
def render_level (s : List Char) (tiles : Tiles) (t : Nat) : Img :=
  spritePass tiles t
    (bgPass tiles t
      (imageNew (maxLen (pySplit '\n' (pyStrip s)) * t) ((pySplit '\n' (pyStrip s)).length * t) skyFill)
      (pySplit '\n' (pyStrip s)))
    (pySplit '\n' (pyStrip s))

/-- The character of the grid cell at row r, column c, when both exist. -/
def charAt (lines : List (List Char)) (r c : Nat) : Option Char :=
  (lines.get? r).bind (fun l => l.get? c)

/-- Modelled from the claim wording for the sprite pass (the specification
side of C2): the list, in row-major cell order, of one paste operation per
sprite-character cell with a present tile image, carrying the sprite image
at its native size, the position x = col*tile_size +
(tile_size - sprite_width) // 2 (Python floor division) and
y = (row+1)*tile_size - sprite_height. -/
def spritePlacementsRow (tiles : Tiles) (t row : Nat) : Nat → List Char → List (Img × Int × Int)
  | _, [] => []
  | col, c :: cs =>
    (match (if c ∈ SPRITE_CHARS then tiles.lookup c else none) with
     | some (some sprite) =>
       [(sprite, (col * t : Nat) + Int.fdiv ((t : Int) - (sprite.width : Int)) 2,
         (((row + 1) * t : Nat) : Int) - (sprite.height : Int))]
     | _ => []) ++ spritePlacementsRow tiles t row (col + 1) cs

/-- All sprite placements of a grid, in row-major order (specification
side of C2). -/
def spritePlacements (tiles : Tiles) (t : Nat) : Nat → List (List Char) → List (Img × Int × Int)
  | _, [] => []
  | row, l :: ls => spritePlacementsRow tiles t row 0 l ++ spritePlacements tiles t (row + 1) ls

/-! ## renderer.py : create_placeholder_tiles -/

/-- PIL ImageDraw.rectangle with an outline color and width 1 on an RGBA
image: the one-pixel border of the inclusive rectangle is set to the color
(ImageDraw writes the color directly, alpha included). -/
def drawRectOutline (img : Img) (x0 y0 x1 y1 : Nat) (c : Pix) : Img :=
  ⟨img.width, img.height, fun x y =>
    if (x0 ≤ x ∧ x ≤ x1 ∧ y0 ≤ y ∧ y ≤ y1) ∧ (x = x0 ∨ x = x1 ∨ y = y0 ∨ y = y1) then c
    else img.pix x y⟩

/-- PIL ImageDraw.rectangle with a fill color on an RGBA image: every
pixel of the inclusive rectangle is set to the color. -/
def drawRectFill (img : Img) (x0 y0 x1 y1 : Nat) (c : Pix) : Img :=
  ⟨img.width, img.height, fun x y =>
    if x0 ≤ x ∧ x ≤ x1 ∧ y0 ≤ y ∧ y ≤ y1 then c else img.pix x y⟩

/-- PIL ImageDraw.ellipse with a fill color: the pixels inside the ellipse
inscribed in the inclusive bounding box are set to the color.  This
approximates Pillow's scanline rasterization; no verified statement
inspects these pixels. -/
def drawEllipse (img : Img) (x0 y0 x1 y1 : Nat) (c : Pix) : Img :=
  ⟨img.width, img.height, fun x y =>
    if (2 * (x : Int) - ((x0 : Int) + (x1 : Int))) ^ 2 * ((y1 : Int) - (y0 : Int)) ^ 2 +
        (2 * (y : Int) - ((y0 : Int) + (y1 : Int))) ^ 2 * ((x1 : Int) - (x0 : Int)) ^ 2
        ≤ ((x1 : Int) - (x0 : Int)) ^ 2 * ((y1 : Int) - (y0 : Int)) ^ 2 then c
    else img.pix x y⟩

/-- PIL ImageDraw.text: the glyph bitmap depends on the runtime default
font, so the drawn pixels cannot be pinned down here; modelled as the
identity.  No verified statement inspects the pixels of the tiles that
receive text. -/
def drawTextGlyph (img : Img) (_x _y : Nat) (_c : Pix) : Img := img

/-- The color table of renderer.py lines 92-107, in source order.  It has
entries for the thirteen drawable level characters and the space
character; it has no entries for G, o or P. -/
def placeholder_colors : List (Char × Pix) :=
  [('-', ⟨135, 206, 235, 255⟩), ('X', ⟨139, 69, 19, 255⟩), ('S', ⟨205, 133, 63, 255⟩),
   ('Q', ⟨255, 215, 0, 255⟩), ('?', ⟨255, 215, 0, 255⟩), ('E', ⟨165, 42, 42, 255⟩),
   ('H', ⟨34, 139, 34, 255⟩), ('<', ⟨0, 128, 0, 255⟩), ('>', ⟨0, 128, 0, 255⟩),
   ('[', ⟨0, 100, 0, 255⟩), (']', ⟨0, 100, 0, 255⟩), ('{', ⟨128, 128, 128, 255⟩),
   ('}', ⟨128, 128, 128, 255⟩), (' ', ⟨135, 206, 235, 255⟩)]

/-- One placeholder tile (renderer.py lines 109-129): a solid fill of the
character's color plus the per-class decorations. -/
def placeholderTile (c : Char) (ts : Nat) (color : Pix) : Img :=
  let img := imageNew ts ts color
  if c ∈ ['S', 'X'] then drawRectOutline img 1 1 (ts - 2) (ts - 2) ⟨0, 0, 0, 100⟩
  else if c ∈ ['Q', '?'] then
    drawTextGlyph (drawRectOutline img 1 1 (ts - 2) (ts - 2) ⟨0, 0, 0, 150⟩) (ts / 4) 2
      ⟨255, 255, 255, 255⟩
  else if c = 'E' then drawEllipse img 2 2 (ts - 3) (ts - 3) ⟨139, 69, 19, 255⟩
  else if c ∈ ['<', '>'] then drawRectFill img 0 (ts / 2) ts ts ⟨0, 100, 0, 255⟩
  else img

/-- renderer.py create_placeholder_tiles (lines 77-131): one placeholder
image per entry of the color table, in table order. -/
def create_placeholder_tiles (tile_size : Nat) : Tiles :=
  placeholder_colors.map (fun p => (p.1, some (placeholderTile p.1 tile_size p.2)))

/-! ## Concrete inputs used to instantiate the verified statements -/

/-- A ragged two-row level: row 0 is the single character A, row 1 is B B. -/
def raggedLevel : List Char := ['A', '\n', 'B', 'B']

/-- A tile set whose background tile is a solid red 1 by 1 image. -/
def redTiles : Tiles := [('-', some (imageNew 1 1 ⟨255, 0, 0, 255⟩))]

/-- A tile set with a background tile and a sprite tile, both 1 by 1. -/
def skyTiles : Tiles :=
  [('-', some (imageNew 1 1 ⟨1, 2, 3, 255⟩)), ('E', some (imageNew 1 1 ⟨9, 9, 9, 255⟩))]

/-! ## Basic lemmas about the string primitives -/

theorem pySplit_ne_nil (sep : Char) (s : List Char) : pySplit sep s ≠ [] := by
  induction s with
  | nil => simp [pySplit]
  | cons c cs ih =>
    simp only [pySplit]
    split
    · simp
    · cases h : pySplit sep cs with
      | nil => simp
      | cons r rs => simp

theorem not_mem_of_mem_pySplit (sep : Char) (s : List Char) :
    ∀ r ∈ pySplit sep s, sep ∉ r := by
  induction s with
  | nil => intro r hr; simp [pySplit] at hr; simp [hr]
  | cons c cs ih =>
    intro r hr
    by_cases hc : c = sep
    · simp only [pySplit, if_pos hc, List.mem_cons] at hr
      rcases hr with hr | hr
      · simp [hr]
      · exact ih r hr
    · cases h : pySplit sep cs with
      | nil => exact absurd h (pySplit_ne_nil sep cs)
      | cons r0 rs =>
        simp only [pySplit, if_neg hc, h, List.mem_cons] at hr
        rcases hr with hr | hr
        · subst hr
          intro hmem
          rcases List.mem_cons.1 hmem with h1 | h1
          · exact hc h1.symm
          · exact ih r0 (h ▸ List.mem_cons_self r0 rs) h1
        · exact ih r (h ▸ List.mem_cons_of_mem r0 hr)

theorem pySplit_no_sep (sep : Char) (r : List Char) (h : sep ∉ r) :
    pySplit sep r = [r] := by
  induction r with
  | nil => simp [pySplit]
  | cons c cs ih =>
    have hc : c ≠ sep := fun hcc => h (hcc ▸ List.mem_cons_self c cs)
    have hcs : sep ∉ cs := fun hm => h (List.mem_cons_of_mem c hm)
    simp only [pySplit, if_neg hc, ih hcs]

theorem pySplit_append_sep (sep : Char) (r rest : List Char) (h : sep ∉ r) :
    pySplit sep (r ++ sep :: rest) = r :: pySplit sep rest := by
  induction r with
  | nil => simp [pySplit]
  | cons c cs ih =>
    have hc : c ≠ sep := fun hcc => h (hcc ▸ List.mem_cons_self c cs)
    have hcs : sep ∉ cs := fun hm => h (List.mem_cons_of_mem c hm)
    cases hsp : pySplit sep (cs ++ sep :: rest) with
    | nil => exact absurd hsp (pySplit_ne_nil _ _)
    | cons r0 rs =>
      have h2 := ih hcs
      rw [hsp] at h2
      injection h2 with h3 h4
      simp only [List.cons_append, pySplit, if_neg hc, List.append_eq, hsp, h3, h4]

theorem pySplit_pyJoin (sep : Char) (rows : List (List Char)) (hne : rows ≠ [])
    (hs : ∀ r ∈ rows, sep ∉ r) : pySplit sep (pyJoin sep rows) = rows := by
  induction rows with
  | nil => exact absurd rfl hne
  | cons r rs ih =>
    cases rs with
    | nil => simpa [pyJoin] using pySplit_no_sep sep r (hs r (List.mem_cons_self r []))
    | cons r1 rs1 =>
      have h1 : pyJoin sep (r :: r1 :: rs1) = r ++ sep :: pyJoin sep (r1 :: rs1) := rfl
      rw [h1, pySplit_append_sep sep r _ (hs r (List.mem_cons_self r _)),
        ih (by simp) (fun x hx => hs x (List.mem_cons_of_mem r hx))]

theorem le_maxLen_foldl (ls : List (List Char)) :
    ∀ a : Nat, a ≤ ls.foldl (fun m l => max m l.length) a := by
  induction ls with
  | nil => intro a; simp
  | cons l ls ih =>
    intro a
    exact le_trans (le_max_left a l.length) (ih (max a l.length))

theorem length_le_maxLen (ls : List (List Char)) :
    ∀ l ∈ ls, l.length ≤ maxLen ls := by
  unfold maxLen
  generalize (0 : Nat) = a
  induction ls generalizing a with
  | nil => intro l hl; simp at hl
  | cons x xs ih =>
    intro l hl
    rcases List.mem_cons.1 hl with h | h
    · subst h
      exact le_trans (le_max_right a l.length) (le_maxLen_foldl xs _)
    · exact ih _ l h

theorem ljust_length (n : Nat) (l : List Char) (h : l.length ≤ n) :
    (ljust n l).length = n := by
  simp [ljust]
  omega

theorem paddedLines_length_eq (s : List Char) :
    ∀ l ∈ paddedLines s, l.length = maxLen (pySplit '\n' (stripNL s)) := by
  intro l hl
  simp only [paddedLines, List.mem_map] at hl
  obtain ⟨l0, hl0, rfl⟩ := hl
  exact ljust_length _ l0 (length_le_maxLen _ l0 hl0)

theorem pyIndex_lt_length (m : Char) (l : List Char) (h : m ∈ l) :
    pyIndex m l < l.length := by
  induction l with
  | nil => simp at h
  | cons c cs ih =>
    simp only [pyIndex]
    by_cases hc : c = m
    · simp [hc]
    · have : m ∈ cs := by
        rcases List.mem_cons.1 h with h1 | h1
        · exact absurd h1.symm hc
        · exact h1
      simp only [if_neg hc, List.length_cons]
      exact Nat.succ_lt_succ (ih this)

theorem findMarkerCol_none_iff (m : Char) (ls : List (List Char)) :
    findMarkerCol m ls = none ↔ ∀ l ∈ ls, m ∉ l := by
  induction ls with
  | nil => simp [findMarkerCol]
  | cons l ls ih =>
    simp only [findMarkerCol]
    by_cases hm : m ∈ l
    · simp [if_pos hm, hm]
    · simp only [if_neg hm, ih]
      constructor
      · intro h x hx
        rcases List.mem_cons.1 hx with h1 | h1
        · subst h1; exact hm
        · exact h x h1
      · intro h x hx
        exact h x (List.mem_cons_of_mem l hx)

theorem findMarkerCol_some (m : Char) (ls : List (List Char)) (k : Nat)
    (h : findMarkerCol m ls = some k) : ∃ l ∈ ls, m ∈ l ∧ k = pyIndex m l := by
  induction ls with
  | nil => simp [findMarkerCol] at h
  | cons l ls ih =>
    simp only [findMarkerCol] at h
    by_cases hm : m ∈ l
    · rw [if_pos hm] at h
      exact ⟨l, List.mem_cons_self l ls, hm, (Option.some.inj h).symm⟩
    · rw [if_neg hm] at h
      obtain ⟨x, hx, hmx, hk⟩ := ih h
      exact ⟨x, List.mem_cons_of_mem l hx, hmx, hk⟩

theorem findMarkerCol_lt_maxLen (m : Char) (s : List Char) (k : Nat)
    (h : findMarkerCol m (paddedLines s) = some k) :
    k < maxLen (pySplit '\n' (stripNL s)) := by
  obtain ⟨l, hl, hm, hk⟩ := findMarkerCol_some m _ k h
  have := pyIndex_lt_length m l hm
  rw [paddedLines_length_eq s l hl] at this
  omega

/-! ## Lemmas about the split loop -/

theorem getD_of_get? : ∀ (l : List α) (i : Nat) (a d : α), l.get? i = some a → l.getD i d = a := by
  intro l
  induction l with
  | nil => intro i a d h; simp [List.get?] at h
  | cons x xs ih =>
    intro i a d h
    cases i with
    | zero =>
      have hx : x = a := Option.some.inj h
      simp [hx]
    | succ n =>
      have h1 : xs.get? n = some a := h
      simpa using ih n a d h1

theorem pySlice_length (l : List α) (a b : Nat) :
    (pySlice l a b).length = min (b - a) (l.length - a) := by
  simp [pySlice]

theorem splitWindows_length (padded : List (List Char)) (sc ec mw w : Nat) (hw : 1 ≤ w) :
    ∀ start, (splitWindows padded sc ec mw w start).length = (mw - start) / w := by
  have H : ∀ n start, mw - start ≤ n →
      (splitWindows padded sc ec mw w start).length = (mw - start) / w := by
    intro n
    induction n with
    | zero =>
      intro start hst
      rw [splitWindows, dif_neg (by omega)]
      have h0 : mw - start = 0 := by omega
      simp [h0]
    | succ n ih =>
      intro start hst
      rw [splitWindows]
      by_cases h : start + w ≤ mw
      · rw [dif_pos ⟨hw, h⟩]
        simp only [List.length_cons]
        rw [ih (start + w) (by omega)]
        have e : mw - start = (mw - (start + w)) + w := by omega
        rw [e, Nat.add_div_right _ hw]
      · rw [dif_neg (by omega)]
        rw [Nat.div_eq_of_lt (by omega)]
        rfl
  intro start
  exact H (mw - start) start le_rfl

theorem splitWindows_get? (padded : List (List Char)) (sc ec mw w : Nat) (hw : 1 ≤ w) :
    ∀ (j start : Nat), (splitWindows padded sc ec mw w start).get? j =
      if start + (j + 1) * w ≤ mw then some (windowRows padded sc ec (start + j * w) w)
      else none := by
  intro j
  induction j with
  | zero =>
    intro start
    rw [splitWindows]
    by_cases h : start + w ≤ mw
    · rw [dif_pos ⟨hw, h⟩, if_pos (by simpa using h)]
      simp
    · rw [dif_neg (by omega), if_neg (by simpa using h)]
      rfl
  | succ j ih =>
    intro start
    rw [splitWindows]
    by_cases h : start + w ≤ mw
    · rw [dif_pos ⟨hw, h⟩]
      simp only [List.get?_cons_succ]
      rw [ih (start + w)]
      have e1 : start + w + (j + 1) * w = start + (j + 1 + 1) * w := by ring
      have e2 : start + w + j * w = start + (j + 1) * w := by ring
      rw [e1, e2]
    · rw [dif_neg (by omega)]
      have hle : w ≤ (j + 1 + 1) * w := Nat.le_mul_of_pos_left w (by omega)
      rw [if_neg (by intro hc; exact h (by omega))]
      rfl

theorem mem_splitWindows (padded : List (List Char)) (sc ec mw w : Nat) (hw : 1 ≤ w)
    (start : Nat) (win : List (List Char)) (hm : win ∈ splitWindows padded sc ec mw w start) :
    ∃ st, st + w ≤ mw ∧ win = windowRows padded sc ec st w := by
  obtain ⟨j, hj⟩ := List.mem_iff_get?.1 hm
  rw [splitWindows_get? padded sc ec mw w hw j start] at hj
  by_cases h : start + (j + 1) * w ≤ mw
  · rw [if_pos h] at hj
    refine ⟨start + j * w, ?_, (Option.some.inj hj).symm⟩
    rw [Nat.succ_mul] at h
    omega
  · rw [if_neg h] at hj
    exact absurd hj (by simp)

theorem pySlice_append_pySlice (m : List α) (a u v : Nat) :
    pySlice m a (a + u) ++ pySlice m (a + u) (a + u + v) = pySlice m a (a + (u + v)) := by
  simp only [pySlice]
  have e1 : a + u - a = u := by omega
  have e2 : a + u + v - (a + u) = v := by omega
  have e3 : a + (u + v) - a = u + v := by omega
  rw [e1, e2, e3, List.take_add]
  congr 1
  rw [List.drop_drop]

theorem pySlice_extract_chunk (p chunk s : List α) (n w : Nat)
    (hp : p.length = n) (hc : chunk.length = w) :
    pySlice (p ++ chunk ++ s) n (n + w) = chunk := by
  simp only [pySlice]
  have e : n + w - n = w := by omega
  rw [e, List.append_assoc, ← hp, List.drop_left, ← hc, List.take_left]

/-! ## Claim C5 : split_level raises exactly when a marker is absent -/

theorem split_level_of_markers (s : List Char) (w sc ec : Nat)
    (hsc : findMarkerCol '{' (paddedLines s) = some sc)
    (hec : findMarkerCol '}' (paddedLines s) = some ec) :
    split_level s w =
      .ok ((splitWindows (paddedLines s) sc ec (ec - sc - 1) w 0).map (pyJoin '\n')) := by
  unfold split_level splitLevelRows
  rw [hsc, hec]

theorem splitLevelRows_of_markers (s : List Char) (w sc ec : Nat)
    (hsc : findMarkerCol '{' (paddedLines s) = some sc)
    (hec : findMarkerCol '}' (paddedLines s) = some ec) :
    splitLevelRows s w =
      .ok (splitWindows (paddedLines s) sc ec (ec - sc - 1) w 0) := by
  unfold splitLevelRows
  rw [hsc, hec]

theorem split_level_noStart (s : List Char) (w : Nat)
    (h1 : findMarkerCol '{' (paddedLines s) = none) :
    split_level s w = .error .missingMarker := by
  unfold split_level splitLevelRows
  rw [h1]

theorem split_level_noEnd (s : List Char) (w : Nat)
    (h2 : findMarkerCol '}' (paddedLines s) = none) :
    split_level s w = .error .missingMarker := by
  unfold split_level splitLevelRows
  rw [h2]
  cases findMarkerCol '{' (paddedLines s) <;> rfl

/-- C5: for every positive width, split_level fails with the missing-marker
validation error exactly when the start marker or the end marker occurs in
no row of the (padded) input grid; when both markers are present no error
is raised (the result is an ok list, possibly empty). -/
theorem split_level_error_iff (s : List Char) (w : Nat) (_hw : 1 ≤ w) :
    (∃ e, split_level s w = .error e) ↔
      ((∀ l ∈ paddedLines s, '{' ∉ l) ∨ (∀ l ∈ paddedLines s, '}' ∉ l)) := by
  constructor
  · rintro ⟨e, he⟩
    cases h1 : findMarkerCol '{' (paddedLines s) with
    | none => exact Or.inl ((findMarkerCol_none_iff '{' (paddedLines s)).1 h1)
    | some sc =>
      cases h2 : findMarkerCol '}' (paddedLines s) with
      | none => exact Or.inr ((findMarkerCol_none_iff '}' (paddedLines s)).1 h2)
      | some ec =>
        rw [split_level_of_markers s w sc ec h1 h2] at he
        exact absurd he (by simp)
  · intro h
    rcases h with h | h
    · exact ⟨.missingMarker,
        split_level_noStart s w ((findMarkerCol_none_iff '{' (paddedLines s)).2 h)⟩
    · exact ⟨.missingMarker,
        split_level_noEnd s w ((findMarkerCol_none_iff '}' (paddedLines s)).2 h)⟩

/-- Witness for C5 at a concrete input: a level with no markers errors. -/
theorem split_level_error_iff_witness :
    ∃ e, split_level ['a', 'b'] 1 = .error e :=
  (split_level_error_iff ['a', 'b'] 1 (by decide)).2 (Or.inl (by decide))

/-! ## Claim C9 : reversed markers give an empty, error-free result -/

/-- C9: when both markers are present but the located end-marker column is
at or before the located start-marker column (so the middle band is empty
or negative in Python terms), split_level raises no error and returns the
empty list, for every positive width. -/
theorem split_level_reversed_markers (s : List Char) (w sc ec : Nat) (hw : 1 ≤ w)
    (hsc : findMarkerCol '{' (paddedLines s) = some sc)
    (hec : findMarkerCol '}' (paddedLines s) = some ec)
    (hle : ec ≤ sc) : split_level s w = .ok [] := by
  rw [split_level_of_markers s w sc ec hsc hec]
  have hmw : ec - sc - 1 = 0 := by omega
  rw [hmw, splitWindows, dif_neg (by omega)]
  rfl

/-- Witness for C9 at a concrete input: the single row with the end marker
before the start marker splits to the empty list without error. -/
theorem split_level_reversed_markers_witness :
    split_level ['}', '{'] 3 = .ok [] :=
  split_level_reversed_markers ['}', '{'] 3 1 0 (by decide) (by decide) (by decide) (by decide)

/-! ## Shape of the emitted rows -/

theorem pySlice_subset (l : List α) (a b : Nat) : pySlice l a b ⊆ l :=
  fun _ hx => List.drop_subset a l (List.take_subset (b - a) (l.drop a) hx)

theorem paddedLines_ne_nil (s : List Char) : paddedLines s ≠ [] := by
  unfold paddedLines
  simp only [ne_eq, List.map_eq_nil_iff]
  exact pySplit_ne_nil _ _

theorem newline_not_mem_paddedLines (s : List Char) :
    ∀ l ∈ paddedLines s, '\n' ∉ l := by
  intro l hl
  simp only [paddedLines, List.mem_map] at hl
  obtain ⟨l0, hl0, rfl⟩ := hl
  intro hmem
  unfold ljust at hmem
  rcases List.mem_append.1 hmem with h | h
  · exact not_mem_of_mem_pySplit '\n' _ l0 hl0 h
  · have := List.eq_of_mem_replicate h
    simp at this

theorem newline_not_mem_windowRows (padded : List (List Char))
    (hpad : ∀ l ∈ padded, '\n' ∉ l) (sc ec st w : Nat) :
    ∀ r ∈ windowRows padded sc ec st w, '\n' ∉ r := by
  intro r hr
  simp only [windowRows, List.mem_map] at hr
  obtain ⟨l, hl, rfl⟩ := hr
  intro hmem
  have hni := hpad l hl
  rcases List.mem_append.1 hmem with h | h
  · rcases List.mem_append.1 h with h1 | h1
    · exact hni (List.take_subset _ _ h1)
    · exact hni (pySlice_subset l _ _ (pySlice_subset _ _ _ h1))
  · exact hni (List.drop_subset _ _ h)

theorem windowRows_ne_nil (s : List Char) (sc ec st w : Nat) :
    windowRows (paddedLines s) sc ec st w ≠ [] := by
  unfold windowRows
  simp only [ne_eq, List.map_eq_nil_iff]
  exact paddedLines_ne_nil s

theorem windowRow_length (l : List Char) (maxw sc ec start w : Nat)
    (hl : l.length = maxw) (hsc : sc < maxw) (hec : ec ≤ maxw)
    (hfit : start + w ≤ ec - sc - 1) :
    (l.take (sc + 1) ++ pySlice (pySlice l (sc + 1) ec) start (start + w) ++ l.drop ec).length
      = (sc + 1) + w + (maxw - ec) := by
  have h2 : (pySlice l (sc + 1) ec).length = ec - sc - 1 := by
    rw [pySlice_length, hl]; omega
  have h3 : (pySlice (pySlice l (sc + 1) ec) start (start + w)).length = w := by
    rw [pySlice_length, h2]; omega
  simp only [List.length_append, List.length_take, List.length_drop, hl, h3]
  omega

/-! ## Claim C7 : every emitted partial level has the claimed row structure -/

/-- C7: every partial level emitted by split_level has as many rows as the
padded input grid; its row i equals the prefix (columns 0..start_col of the
padded row), then exactly width columns of the middle band starting at the
window offset, then the suffix (columns end_col..max_width); hence every
row of every emitted slice has width (start_col+1) + width + (max_width -
end_col). -/
theorem split_level_window_shape (s : List Char) (w sc ec j i : Nat)
    (p li : List Char) (parts : List (List Char)) (hw : 1 ≤ w)
    (hsc : findMarkerCol '{' (paddedLines s) = some sc)
    (hec : findMarkerCol '}' (paddedLines s) = some ec)
    (hp : split_level s w = .ok parts)
    (hj : parts.get? j = some p)
    (hli : (paddedLines s).get? i = some li) :
    (pySplit '\n' p).length = (paddedLines s).length ∧
    (pySplit '\n' p).get? i =
      some (li.take (sc + 1) ++ pySlice (pySlice li (sc + 1) ec) (j * w) (j * w + w) ++ li.drop ec) ∧
    (li.take (sc + 1) ++ pySlice (pySlice li (sc + 1) ec) (j * w) (j * w + w) ++ li.drop ec).length
      = (sc + 1) + w + (maxLen (pySplit '\n' (stripNL s)) - ec) := by
  rw [split_level_of_markers s w sc ec hsc hec] at hp
  have hparts := (Except.ok.inj hp).symm
  subst hparts
  rw [List.get?_map] at hj
  obtain ⟨win, hwj, hpj⟩ := Option.map_eq_some'.1 hj
  rw [splitWindows_get? _ _ _ _ _ hw j 0] at hwj
  by_cases hcond : 0 + (j + 1) * w ≤ ec - sc - 1
  · rw [if_pos hcond] at hwj
    have hwin : win = windowRows (paddedLines s) sc ec (j * w) w := by
      have := Option.some.inj hwj
      simpa using this.symm
    have hfit : j * w + w ≤ ec - sc - 1 := by
      rw [Nat.succ_mul] at hcond; omega
    have hrows : pySplit '\n' p = win := by
      rw [← hpj]
      exact pySplit_pyJoin '\n' win
        (by rw [hwin]; exact windowRows_ne_nil s sc ec (j * w) w)
        (by rw [hwin]; exact newline_not_mem_windowRows _ (newline_not_mem_paddedLines s) sc ec (j * w) w)
    have hmem : li ∈ paddedLines s := List.get?_mem hli
    have hlilen : li.length = maxLen (pySplit '\n' (stripNL s)) := paddedLines_length_eq s li hmem
    have hsc' : sc < maxLen (pySplit '\n' (stripNL s)) := findMarkerCol_lt_maxLen '{' s sc hsc
    have hec' : ec < maxLen (pySplit '\n' (stripNL s)) := findMarkerCol_lt_maxLen '}' s ec hec
    refine ⟨?_, ?_, ?_⟩
    · rw [hrows, hwin]
      exact List.length_map _ _
    · rw [hrows, hwin]
      unfold windowRows
      rw [List.get?_map, hli]
      rfl
    · exact windowRow_length li _ sc ec (j * w) w hlilen hsc' (le_of_lt hec') hfit
  · rw [if_neg hcond] at hwj
    exact absurd hwj (by simp)

/-- Witness for C7 at a concrete input: splitting the single-row level
with rows left-brace A B right-brace at width 2 gives one partial level
whose only row is the whole padded row. -/
theorem split_level_window_shape_witness :
    (pySplit '\n' ['{', 'A', 'B', '}']).length = (paddedLines ['{', 'A', 'B', '}']).length ∧
    (pySplit '\n' ['{', 'A', 'B', '}']).get? 0 =
      some (List.take (0 + 1) ['{', 'A', 'B', '}'] ++
        pySlice (pySlice ['{', 'A', 'B', '}'] (0 + 1) 3) (0 * 2) (0 * 2 + 2) ++
        List.drop 3 ['{', 'A', 'B', '}']) ∧
    (List.take (0 + 1) ['{', 'A', 'B', '}'] ++
        pySlice (pySlice ['{', 'A', 'B', '}'] (0 + 1) 3) (0 * 2) (0 * 2 + 2) ++
        List.drop 3 ['{', 'A', 'B', '}']).length
      = (0 + 1) + 2 + (maxLen (pySplit '\n' (stripNL ['{', 'A', 'B', '}'])) - 3) :=
  by
  have hp : split_level ['{', 'A', 'B', '}'] 2 = .ok [['{', 'A', 'B', '}']] := by
    rw [split_level_of_markers ['{', 'A', 'B', '}'] 2 0 3 (by decide) (by decide)]
    rw [splitWindows, dif_pos (by decide), splitWindows, dif_neg (by decide)]
    rfl
  exact split_level_window_shape ['{', 'A', 'B', '}'] 2 0 3 0 0 ['{', 'A', 'B', '}']
    ['{', 'A', 'B', '}'] [['{', 'A', 'B', '}']] (by decide) (by decide) (by decide)
    hp (by rfl) (by rfl)

/-! ## Claim C6 : coverage of the middle band -/

theorem splitWindows_band_join (padded : List (List Char)) (sc ec mw w : Nat) (hw : 1 ≤ w)
    (i : Nat) (li m : List Char) (hli : padded.get? i = some li)
    (hm : m = pySlice li (sc + 1) ec) (hlen : m.length = mw) (hpre : sc + 1 ≤ li.length) :
    ∀ start,
      ((splitWindows padded sc ec mw w start).map
          (fun win => pySlice (win.getD i []) (sc + 1) (sc + 1 + w))).flatten
        = pySlice m start (start + ((mw - start) / w) * w) := by
  have H : ∀ n start, mw - start ≤ n →
      ((splitWindows padded sc ec mw w start).map
          (fun win => pySlice (win.getD i []) (sc + 1) (sc + 1 + w))).flatten
        = pySlice m start (start + ((mw - start) / w) * w) := by
    intro n
    induction n with
    | zero =>
      intro start hst
      rw [splitWindows, dif_neg (by omega)]
      have h0 : (mw - start) / w = 0 := by
        have hz : mw - start = 0 := by omega
        simp [hz]
      rw [h0]
      simp [pySlice]
    | succ n ih =>
      intro start hst
      rw [splitWindows]
      by_cases h : start + w ≤ mw
      · rw [dif_pos ⟨hw, h⟩]
        simp only [List.map_cons, List.flatten_cons]
        have hrow : (windowRows padded sc ec start w).getD i [] =
            li.take (sc + 1) ++ pySlice m start (start + w) ++ li.drop ec := by
          apply getD_of_get?
          rw [windowRows, List.get?_map, hli]
          simp [hm]
        have hpre_len : (li.take (sc + 1)).length = sc + 1 := by
          rw [List.length_take]; omega
        have hchunk_len : (pySlice m start (start + w)).length = w := by
          rw [pySlice_length, hlen]; omega
        have hextract :
            pySlice ((windowRows padded sc ec start w).getD i []) (sc + 1) (sc + 1 + w)
              = pySlice m start (start + w) := by
          rw [hrow]
          exact pySlice_extract_chunk _ _ _ _ _ hpre_len hchunk_len
        rw [hextract, ih (start + w) (by omega)]
        have hk : (mw - start) / w = (mw - (start + w)) / w + 1 := by
          have e : mw - start = (mw - (start + w)) + w := by omega
          rw [e, Nat.add_div_right _ hw]
        rw [hk]
        have e2 : ((mw - (start + w)) / w + 1) * w = w + ((mw - (start + w)) / w) * w := by
          ring
        rw [e2]
        exact pySlice_append_pySlice m start w (((mw - (start + w)) / w) * w)
      · rw [dif_neg (by omega)]
        have h0 : (mw - start) / w = 0 := Nat.div_eq_of_lt (by omega)
        rw [h0]
        simp [pySlice]
  intro start
  exact H (mw - start) start le_rfl

/-- C6: for a level containing both markers and a positive width,
concatenating the middle bands of the partial levels returned by
split_level, in emission order, reproduces exactly the first k*width
columns of the original middle band of each row, where k is the number of
emitted partials; the emitted windows cover at most the first k*width of
the middle-band columns (the remainder is never emitted), and when the
middle band is narrower than the width the result is the empty list (a
non-error outcome). -/
theorem split_level_band_coverage (s : List Char) (w sc ec i : Nat) (li : List Char)
    (parts : List (List Char)) (hw : 1 ≤ w)
    (hsc : findMarkerCol '{' (paddedLines s) = some sc)
    (hec : findMarkerCol '}' (paddedLines s) = some ec)
    (hp : split_level s w = .ok parts)
    (hli : (paddedLines s).get? i = some li) :
    (parts.map (fun p => pySlice ((pySplit '\n' p).getD i []) (sc + 1) (sc + 1 + w))).flatten
        = (pySlice li (sc + 1) ec).take (parts.length * w)
      ∧ parts.length * w ≤ ec - sc - 1
      ∧ (ec - sc - 1 < w → parts = []) := by
  rw [split_level_of_markers s w sc ec hsc hec] at hp
  have hparts := (Except.ok.inj hp).symm
  subst hparts
  have hmem : li ∈ paddedLines s := List.get?_mem hli
  have hlilen : li.length = maxLen (pySplit '\n' (stripNL s)) := paddedLines_length_eq s li hmem
  have hsc' : sc < maxLen (pySplit '\n' (stripNL s)) := findMarkerCol_lt_maxLen '{' s sc hsc
  have hec' : ec < maxLen (pySplit '\n' (stripNL s)) := findMarkerCol_lt_maxLen '}' s ec hec
  have hmlen : (pySlice li (sc + 1) ec).length = ec - sc - 1 := by
    rw [pySlice_length, hlilen]; omega
  refine ⟨?_, ?_, ?_⟩
  · rw [List.map_map]
    have hmapeq :
        ((splitWindows (paddedLines s) sc ec (ec - sc - 1) w 0).map
            ((fun p => pySlice ((pySplit '\n' p).getD i []) (sc + 1) (sc + 1 + w)) ∘ pyJoin '\n'))
          = (splitWindows (paddedLines s) sc ec (ec - sc - 1) w 0).map
              (fun win => pySlice (win.getD i []) (sc + 1) (sc + 1 + w)) := by
      apply List.map_congr_left
      intro win hwin
      obtain ⟨st, hst, hwin_eq⟩ := mem_splitWindows _ _ _ _ _ hw 0 win hwin
      simp only [Function.comp]
      rw [pySplit_pyJoin '\n' win
        (by rw [hwin_eq]; exact windowRows_ne_nil s sc ec st w)
        (by rw [hwin_eq]
            exact newline_not_mem_windowRows _ (newline_not_mem_paddedLines s) sc ec st w)]
    rw [hmapeq]
    rw [splitWindows_band_join (paddedLines s) sc ec (ec - sc - 1) w hw i li
      (pySlice li (sc + 1) ec) hli rfl hmlen (by omega) 0]
    rw [List.length_map, splitWindows_length _ _ _ _ _ hw 0]
    simp [pySlice]
  · rw [List.length_map, splitWindows_length _ _ _ _ _ hw 0]
    simpa using Nat.div_mul_le_self (ec - sc - 1) w
  · intro hlt
    rw [splitWindows, dif_neg (by omega)]
    rfl

/-- Witness for C6 at a concrete input: splitting the single-row level with
rows left-brace A B right-brace at width 1 gives two partial levels whose
middle bands concatenate to the original middle band A B. -/
theorem split_level_band_coverage_witness :
    (([['{', 'A', '}'], ['{', 'B', '}']].map
          (fun p => pySlice ((pySplit '\n' p).getD 0 []) (0 + 1) (0 + 1 + 1))).flatten
        = (pySlice ['{', 'A', 'B', '}'] (0 + 1) 3).take ([['{', 'A', '}'], ['{', 'B', '}']].length * 1)
      ∧ [['{', 'A', '}'], ['{', 'B', '}']].length * 1 ≤ 3 - 0 - 1
      ∧ (3 - 0 - 1 < 1 → [['{', 'A', '}'], ['{', 'B', '}']] = [])) := by
  have hp : split_level ['{', 'A', 'B', '}'] 1 = .ok [['{', 'A', '}'], ['{', 'B', '}']] := by
    rw [split_level_of_markers ['{', 'A', 'B', '}'] 1 0 3 (by decide) (by decide)]
    rw [splitWindows, dif_pos (by decide), splitWindows, dif_pos (by decide),
      splitWindows, dif_neg (by decide)]
    rfl
  exact split_level_band_coverage ['{', 'A', 'B', '}'] 1 0 3 0 ['{', 'A', 'B', '}']
    [['{', 'A', '}'], ['{', 'B', '}']] (by decide) (by decide) (by decide) hp (by rfl)

/-! ## Image dimensions through the passes -/

theorem fitTile_width (t : Nat) (img : Img) : (fitTile t img).width = t := by
  unfold fitTile
  split
  · rename_i h; exact h.1
  · rfl

theorem fitTile_height (t : Nat) (img : Img) : (fitTile t img).height = t := by
  unfold fitTile
  split
  · rename_i h; exact h.2
  · rfl

theorem drawSkyAt_dims (tiles : Tiles) (t : Nat) (out : Img) (row col : Nat) :
    (drawSkyAt tiles t out row col).width = out.width ∧
    (drawSkyAt tiles t out row col).height = out.height := by
  unfold drawSkyAt
  cases h : tiles.lookup '-' with
  | none => exact ⟨rfl, rfl⟩
  | some o =>
    cases o with
    | none => exact ⟨rfl, rfl⟩
    | some sky => exact ⟨rfl, rfl⟩

theorem bgCellStep_dims (tiles : Tiles) (t : Nat) (out : Img) (row col : Nat) (c : Char) :
    (bgCellStep tiles t out row col c).width = out.width ∧
    (bgCellStep tiles t out row col c).height = out.height := by
  unfold bgCellStep
  by_cases hs : c ∈ SPRITE_CHARS
  · rw [if_pos hs]; exact drawSkyAt_dims tiles t out row col
  · rw [if_neg hs]
    cases h : tiles.lookup c with
    | none => exact drawSkyAt_dims tiles t out row col
    | some o =>
      cases o with
      | none => exact drawSkyAt_dims tiles t out row col
      | some tile => exact ⟨rfl, rfl⟩

theorem bgRow_dims (tiles : Tiles) (t row : Nat) :
    ∀ (cs : List Char) (out : Img) (col : Nat),
      (bgRow tiles t row out col cs).width = out.width ∧
      (bgRow tiles t row out col cs).height = out.height := by
  intro cs
  induction cs with
  | nil => intro out col; exact ⟨rfl, rfl⟩
  | cons c cs ih =>
    intro out col
    have h1 := ih (bgCellStep tiles t out row col c) (col + 1)
    have h2 := bgCellStep_dims tiles t out row col c
    exact ⟨h1.1.trans h2.1, h1.2.trans h2.2⟩

theorem bgRows_dims (tiles : Tiles) (t : Nat) :
    ∀ (ls : List (List Char)) (out : Img) (row : Nat),
      (bgRows tiles t out row ls).width = out.width ∧
      (bgRows tiles t out row ls).height = out.height := by
  intro ls
  induction ls with
  | nil => intro out row; exact ⟨rfl, rfl⟩
  | cons l ls ih =>
    intro out row
    have h1 := ih (bgRow tiles t row out 0 l) (row + 1)
    have h2 := bgRow_dims tiles t row l out 0
    exact ⟨h1.1.trans h2.1, h1.2.trans h2.2⟩

theorem spriteCellStep_dims (tiles : Tiles) (t : Nat) (out : Img) (row col : Nat) (c : Char) :
    (spriteCellStep tiles t out row col c).width = out.width ∧
    (spriteCellStep tiles t out row col c).height = out.height := by
  unfold spriteCellStep
  by_cases hs : c ∈ SPRITE_CHARS
  · rw [if_pos hs]
    cases h : tiles.lookup c with
    | none => exact ⟨rfl, rfl⟩
    | some o =>
      cases o with
      | none => exact ⟨rfl, rfl⟩
      | some sprite => exact ⟨rfl, rfl⟩
  · rw [if_neg hs]; exact ⟨rfl, rfl⟩

theorem spriteRow_dims (tiles : Tiles) (t row : Nat) :
    ∀ (cs : List Char) (out : Img) (col : Nat),
      (spriteRow tiles t row out col cs).width = out.width ∧
      (spriteRow tiles t row out col cs).height = out.height := by
  intro cs
  induction cs with
  | nil => intro out col; exact ⟨rfl, rfl⟩
  | cons c cs ih =>
    intro out col
    have h1 := ih (spriteCellStep tiles t out row col c) (col + 1)
    have h2 := spriteCellStep_dims tiles t out row col c
    exact ⟨h1.1.trans h2.1, h1.2.trans h2.2⟩

theorem spriteRows_dims (tiles : Tiles) (t : Nat) :
    ∀ (ls : List (List Char)) (out : Img) (row : Nat),
      (spriteRows tiles t out row ls).width = out.width ∧
      (spriteRows tiles t out row ls).height = out.height := by
  intro ls
  induction ls with
  | nil => intro out row; exact ⟨rfl, rfl⟩
  | cons l ls ih =>
    intro out row
    have h1 := ih (spriteRow tiles t row out 0 l) (row + 1)
    have h2 := spriteRow_dims tiles t row l out 0
    exact ⟨h1.1.trans h2.1, h1.2.trans h2.2⟩

/-! ## Claim C1 : output image dimensions -/

/-- C1: for every level string that is non-empty after trimming and every
tile size, render_level returns an image of size exactly
(max_row_length * tile_size, row_count * tile_size), where the rows are
those of the trimmed string. -/
theorem render_level_dims (s : List Char) (tiles : Tiles) (t : Nat)
    (_h : pyStrip s ≠ []) :
    (render_level s tiles t).width = maxLen (pySplit '\n' (pyStrip s)) * t ∧
    (render_level s tiles t).height = (pySplit '\n' (pyStrip s)).length * t := by
  unfold render_level spritePass bgPass
  have h1 := bgRows_dims tiles t (pySplit '\n' (pyStrip s))
    (imageNew (maxLen (pySplit '\n' (pyStrip s)) * t) ((pySplit '\n' (pyStrip s)).length * t) skyFill) 0
  have h2 := spriteRows_dims tiles t (pySplit '\n' (pyStrip s))
    (bgRows tiles t
      (imageNew (maxLen (pySplit '\n' (pyStrip s)) * t) ((pySplit '\n' (pyStrip s)).length * t) skyFill)
      0 (pySplit '\n' (pyStrip s))) 0
  exact ⟨h2.1.trans h1.1, h2.2.trans h1.2⟩

/-- Witness for C1 at a concrete input: the one-character level X at tile
size 16. -/
theorem render_level_dims_witness :
    (render_level ['X'] [] 16).width = maxLen (pySplit '\n' (pyStrip ['X'])) * 16 ∧
    (render_level ['X'] [] 16).height = (pySplit '\n' (pyStrip ['X'])).length * 16 :=
  render_level_dims ['X'] [] 16 (by decide)

/-! ## Claim C2 : the sprite pass as a list of pastes -/

theorem spriteRow_eq_foldl (tiles : Tiles) (t row : Nat) :
    ∀ (cs : List Char) (out : Img) (col : Nat),
      spriteRow tiles t row out col cs =
        (spritePlacementsRow tiles t row col cs).foldl
          (fun o pl => pasteMask o pl.1 pl.2.1 pl.2.2) out := by
  intro cs
  induction cs with
  | nil => intro out col; rfl
  | cons c cs ih =>
    intro out col
    show spriteRow tiles t row (spriteCellStep tiles t out row col c) (col + 1) cs = _
    rw [ih]
    by_cases hs : c ∈ SPRITE_CHARS
    · cases h : tiles.lookup c with
      | some o =>
        cases o with
        | some sprite =>
          have hhead : spritePlacementsRow tiles t row col (c :: cs) =
              (sprite, ((col * t : Nat) : Int) + Int.fdiv ((t : Int) - (sprite.width : Int)) 2,
                (((row + 1) * t : Nat) : Int) - (sprite.height : Int))
                :: spritePlacementsRow tiles t row (col + 1) cs := by
            simp [spritePlacementsRow, hs, h]
          rw [hhead, List.foldl_cons]
          congr 1
          simp [spriteCellStep, hs, h]
        | none =>
          have hhead : spritePlacementsRow tiles t row col (c :: cs) =
              spritePlacementsRow tiles t row (col + 1) cs := by
            simp [spritePlacementsRow, hs, h]
          rw [hhead]
          congr 1
          simp [spriteCellStep, hs, h]
      | none =>
        have hhead : spritePlacementsRow tiles t row col (c :: cs) =
            spritePlacementsRow tiles t row (col + 1) cs := by
          simp [spritePlacementsRow, hs, h]
        rw [hhead]
        congr 1
        simp [spriteCellStep, hs, h]
    · have hhead : spritePlacementsRow tiles t row col (c :: cs) =
          spritePlacementsRow tiles t row (col + 1) cs := by
        simp [spritePlacementsRow, hs]
      rw [hhead]
      congr 1
      simp [spriteCellStep, hs]

theorem spriteRows_eq_foldl (tiles : Tiles) (t : Nat) :
    ∀ (ls : List (List Char)) (out : Img) (row : Nat),
      spriteRows tiles t out row ls =
        (spritePlacements tiles t row ls).foldl
          (fun o pl => pasteMask o pl.1 pl.2.1 pl.2.2) out := by
  intro ls
  induction ls with
  | nil => intro out row; rfl
  | cons l ls ih =>
    intro out row
    show spriteRows tiles t (spriteRow tiles t row out 0 l) (row + 1) ls = _
    rw [ih]
    show _ = (spritePlacementsRow tiles t row 0 l ++ spritePlacements tiles t (row + 1) ls).foldl _ out
    rw [List.foldl_append, ← spriteRow_eq_foldl tiles t row l out 0]

/-- C2: the sprite pass of render_level performs exactly, in row-major cell
order, one paste per sprite-character cell with a present tile image: the
sprite is pasted at its native size (never resized) at
x = col*tile_size + (tile_size - sprite_width) // 2 (Python floor
division, Int.fdiv) and y = (row+1)*tile_size - sprite_height, with the
sprite itself as the paste mask (pasteMask blends with the source's alpha
channel), so a sprite taller than the cell extends to y coordinates above
the cell. -/
theorem sprite_pass_placements (tiles : Tiles) (t : Nat) (out : Img) (lines : List (List Char)) :
    spritePass tiles t out lines =
      (spritePlacements tiles t 0 lines).foldl
        (fun o pl => pasteMask o pl.1 pl.2.1 pl.2.2) out :=
  spriteRows_eq_foldl tiles t lines out 0

/-! ## Claim C8 : placeholder tiles -/

/-- C8 counterexample: create_placeholder_tiles has no entry for the
reserved character G (nor o, P), refuting that every character of the
recognized alphabet receives a placeholder tile. -/
theorem create_placeholder_tiles_no_G :
    (create_placeholder_tiles 16).lookup 'G' = none := by rfl

/-- C8 amended: create_placeholder_tiles returns a placeholder image for
exactly the characters of its color table, in table order: the thirteen
drawable level characters and the space character; the reserved G, o and P
have no color entry and receive no tile.  The synthesis itself is total
(it never raises: it only iterates its own color table). -/
theorem create_placeholder_tiles_keys (ts : Nat) :
    (create_placeholder_tiles ts).map Prod.fst =
      ['-', 'X', 'S', 'Q', '?', 'E', 'H', '<', '>', '[', ']', '{', '}', ' '] := by rfl

/-! ## Locality of the background pass -/

theorem pasteMask_pix_outside (dst src : Img) (x0 y0 : Int) (x y : Nat)
    (h : ¬(0 ≤ (x : Int) - x0 ∧ (x : Int) - x0 < (src.width : Int) ∧
          0 ≤ (y : Int) - y0 ∧ (y : Int) - y0 < (src.height : Int))) :
    (pasteMask dst src x0 y0).pix x y = dst.pix x y := by
  simp only [pasteMask]
  rw [if_neg h]

theorem pasteMask_pix_congr (dst dst' src : Img) (x0 y0 : Int) (x y : Nat)
    (h : dst.pix x y = dst'.pix x y) :
    (pasteMask dst src x0 y0).pix x y = (pasteMask dst' src x0 y0).pix x y := by
  simp only [pasteMask]
  split
  · rw [h]
  · exact h

theorem div_block_iff (t x col : Nat) (ht : 0 < t) :
    x / t = col ↔ col * t ≤ x ∧ x < col * t + t := by
  constructor
  · intro h
    subst h
    refine ⟨Nat.div_mul_le_self x t, ?_⟩
    have h1 := Nat.div_add_mod x t
    have h2 := Nat.mod_lt x ht
    rw [Nat.mul_comm t (x / t)] at h1
    omega
  · intro h
    exact Nat.div_eq_of_lt_le h.1 (by rw [Nat.succ_mul]; omega)

theorem pasteFit_pix_outside (out img : Img) (t row col x y : Nat) (ht : 0 < t)
    (himgw : img.width = t) (himgh : img.height = t)
    (h : x / t ≠ col ∨ y / t ≠ row) :
    (pasteMask out img ((col * t : Nat) : Int) ((row * t : Nat) : Int)).pix x y = out.pix x y := by
  apply pasteMask_pix_outside
  rw [himgw, himgh]
  rintro ⟨h1, h2, h3, h4⟩
  rcases h with h | h
  · exact h ((div_block_iff t x col ht).2 ⟨by omega, by omega⟩)
  · exact h ((div_block_iff t y row ht).2 ⟨by omega, by omega⟩)

theorem drawSkyAt_pix_outside (tiles : Tiles) (t : Nat) (out : Img) (row col x y : Nat)
    (ht : 0 < t) (h : x / t ≠ col ∨ y / t ≠ row) :
    (drawSkyAt tiles t out row col).pix x y = out.pix x y := by
  unfold drawSkyAt
  cases hl : tiles.lookup '-' with
  | none => rfl
  | some o =>
    cases o with
    | none => rfl
    | some sky =>
      exact pasteFit_pix_outside out (fitTile t sky) t row col x y ht
        (fitTile_width t sky) (fitTile_height t sky) h

theorem bgCellStep_pix_outside (tiles : Tiles) (t : Nat) (out : Img) (row col : Nat)
    (c : Char) (x y : Nat) (ht : 0 < t) (h : x / t ≠ col ∨ y / t ≠ row) :
    (bgCellStep tiles t out row col c).pix x y = out.pix x y := by
  unfold bgCellStep
  by_cases hs : c ∈ SPRITE_CHARS
  · rw [if_pos hs]
    exact drawSkyAt_pix_outside tiles t out row col x y ht h
  · rw [if_neg hs]
    cases hl : tiles.lookup c with
    | none => exact drawSkyAt_pix_outside tiles t out row col x y ht h
    | some o =>
      cases o with
      | none => exact drawSkyAt_pix_outside tiles t out row col x y ht h
      | some tile =>
        exact pasteFit_pix_outside out (fitTile t tile) t row col x y ht
          (fitTile_width t tile) (fitTile_height t tile) h

theorem drawSkyAt_pix_congr (tiles : Tiles) (t : Nat) (out out' : Img) (row col x y : Nat)
    (h : out.pix x y = out'.pix x y) :
    (drawSkyAt tiles t out row col).pix x y = (drawSkyAt tiles t out' row col).pix x y := by
  unfold drawSkyAt
  cases hl : tiles.lookup '-' with
  | none => exact h
  | some o =>
    cases o with
    | none => exact h
    | some sky => exact pasteMask_pix_congr out out' (fitTile t sky) _ _ x y h

theorem bgCellStep_pix_congr (tiles : Tiles) (t : Nat) (out out' : Img) (row col : Nat)
    (c : Char) (x y : Nat) (h : out.pix x y = out'.pix x y) :
    (bgCellStep tiles t out row col c).pix x y = (bgCellStep tiles t out' row col c).pix x y := by
  unfold bgCellStep
  by_cases hs : c ∈ SPRITE_CHARS
  · simp only [if_pos hs]
    exact drawSkyAt_pix_congr tiles t out out' row col x y h
  · simp only [if_neg hs]
    cases hl : tiles.lookup c with
    | none => exact drawSkyAt_pix_congr tiles t out out' row col x y h
    | some o =>
      cases o with
      | none => exact drawSkyAt_pix_congr tiles t out out' row col x y h
      | some tile => exact pasteMask_pix_congr out out' (fitTile t tile) _ _ x y h

theorem bgRow_pix_wrongRow (tiles : Tiles) (t row x y : Nat) (ht : 0 < t)
    (hrow : y / t ≠ row) :
    ∀ (cs : List Char) (out : Img) (col : Nat),
      (bgRow tiles t row out col cs).pix x y = out.pix x y := by
  intro cs
  induction cs with
  | nil => intro out col; rfl
  | cons c cs ih =>
    intro out col
    show (bgRow tiles t row (bgCellStep tiles t out row col c) (col + 1) cs).pix x y = out.pix x y
    rw [ih]
    exact bgCellStep_pix_outside tiles t out row col c x y ht (Or.inr hrow)

theorem bgRow_pix_congr (tiles : Tiles) (t row x y : Nat) :
    ∀ (cs : List Char) (out out' : Img) (col : Nat),
      out.pix x y = out'.pix x y →
      (bgRow tiles t row out col cs).pix x y = (bgRow tiles t row out' col cs).pix x y := by
  intro cs
  induction cs with
  | nil => intro out out' col h; exact h
  | cons c cs ih =>
    intro out out' col h
    exact ih (bgCellStep tiles t out row col c) (bgCellStep tiles t out' row col c) (col + 1)
      (bgCellStep_pix_congr tiles t out out' row col c x y h)

theorem bgRow_pix_miss (tiles : Tiles) (t row x y : Nat) (ht : 0 < t) :
    ∀ (cs : List Char) (out : Img) (col : Nat),
      (col ≤ x / t → cs.get? (x / t - col) = none) →
      (bgRow tiles t row out col cs).pix x y = out.pix x y := by
  intro cs
  induction cs with
  | nil => intro out col _; rfl
  | cons c cs ih =>
    intro out col hm
    show (bgRow tiles t row (bgCellStep tiles t out row col c) (col + 1) cs).pix x y = out.pix x y
    by_cases hcol : col ≤ x / t
    · have hg := hm hcol
      have hne : x / t ≠ col := by
        intro hE
        rw [hE, Nat.sub_self] at hg
        exact absurd hg (by simp)
      rw [ih (bgCellStep tiles t out row col c) (col + 1) ?_]
      · exact bgCellStep_pix_outside tiles t out row col c x y ht (Or.inl hne)
      · intro h2
        have he : x / t - col = (x / t - (col + 1)) + 1 := by omega
        rw [he] at hg
        simpa using hg
    · rw [ih (bgCellStep tiles t out row col c) (col + 1) (fun h2 => absurd h2 (by omega))]
      exact bgCellStep_pix_outside tiles t out row col c x y ht (Or.inl (by omega))

theorem bgRow_pix_hit (tiles : Tiles) (t row x y : Nat) (ht : 0 < t) :
    ∀ (cs : List Char) (out : Img) (col : Nat) (c : Char),
      col ≤ x / t → cs.get? (x / t - col) = some c →
      (bgRow tiles t row out col cs).pix x y =
        (bgCellStep tiles t out row (x / t) c).pix x y := by
  intro cs
  induction cs with
  | nil =>
    intro out col c _ hg
    simp at hg
  | cons c' cs ih =>
    intro out col c hc hg
    show (bgRow tiles t row (bgCellStep tiles t out row col c') (col + 1) cs).pix x y = _
    by_cases hcol : x / t = col
    · have h0 : x / t - col = 0 := by omega
      rw [h0] at hg
      have hcc : c' = c := by simpa using hg
      subst hcc
      rw [bgRow_pix_miss tiles t row x y ht cs (bgCellStep tiles t out row col c') (col + 1)
        (fun h2 => absurd h2 (by omega))]
      rw [hcol]
    · have hc1 : col + 1 ≤ x / t := by omega
      have hg1 : cs.get? (x / t - (col + 1)) = some c := by
        have he : x / t - col = (x / t - (col + 1)) + 1 := by omega
        rw [he] at hg
        simpa using hg
      rw [ih (bgCellStep tiles t out row col c') (col + 1) c hc1 hg1]
      exact bgCellStep_pix_congr tiles t _ out row (x / t) c x y
        (bgCellStep_pix_outside tiles t out row col c' x y ht (Or.inl (by omega)))

theorem bgRows_pix_miss (tiles : Tiles) (t x y : Nat) (ht : 0 < t) :
    ∀ (ls : List (List Char)) (out : Img) (row : Nat),
      (row ≤ y / t → ls.get? (y / t - row) = none) →
      (bgRows tiles t out row ls).pix x y = out.pix x y := by
  intro ls
  induction ls with
  | nil => intro out row _; rfl
  | cons l ls ih =>
    intro out row hm
    show (bgRows tiles t (bgRow tiles t row out 0 l) (row + 1) ls).pix x y = out.pix x y
    by_cases hrow : row ≤ y / t
    · have hg := hm hrow
      have hne : y / t ≠ row := by
        intro hE
        rw [hE, Nat.sub_self] at hg
        exact absurd hg (by simp)
      rw [ih (bgRow tiles t row out 0 l) (row + 1) ?_]
      · exact bgRow_pix_wrongRow tiles t row x y ht hne l out 0
      · intro h2
        have he : y / t - row = (y / t - (row + 1)) + 1 := by omega
        rw [he] at hg
        simpa using hg
    · rw [ih (bgRow tiles t row out 0 l) (row + 1) (fun h2 => absurd h2 (by omega))]
      exact bgRow_pix_wrongRow tiles t row x y ht (by omega) l out 0

theorem bgRows_pix_hit (tiles : Tiles) (t x y : Nat) (ht : 0 < t) :
    ∀ (ls : List (List Char)) (out : Img) (row : Nat) (line : List Char),
      row ≤ y / t → ls.get? (y / t - row) = some line →
      (bgRows tiles t out row ls).pix x y =
        (bgRow tiles t (y / t) out 0 line).pix x y := by
  intro ls
  induction ls with
  | nil =>
    intro out row line _ hg
    simp at hg
  | cons l ls ih =>
    intro out row line hr hg
    show (bgRows tiles t (bgRow tiles t row out 0 l) (row + 1) ls).pix x y = _
    by_cases hrow : y / t = row
    · have h0 : y / t - row = 0 := by omega
      rw [h0] at hg
      have hll : l = line := by simpa using hg
      subst hll
      rw [bgRows_pix_miss tiles t x y ht ls (bgRow tiles t row out 0 l) (row + 1)
        (fun h2 => absurd h2 (by omega))]
      rw [hrow]
    · have hr1 : row + 1 ≤ y / t := by omega
      have hg1 : ls.get? (y / t - (row + 1)) = some line := by
        have he : y / t - row = (y / t - (row + 1)) + 1 := by omega
        rw [he] at hg
        simpa using hg
      rw [ih (bgRow tiles t row out 0 l) (row + 1) line hr1 hg1]
      exact bgRow_pix_congr tiles t (y / t) x y line _ out 0
        (bgRow_pix_wrongRow tiles t row x y ht (by omega) l out 0)

theorem bgPass_pix_hit (tiles : Tiles) (t : Nat) (out : Img) (lines : List (List Char))
    (x y : Nat) (c : Char) (ht : 0 < t)
    (hc : charAt lines (y / t) (x / t) = some c) :
    (bgPass tiles t out lines).pix x y = (bgCellStep tiles t out (y / t) (x / t) c).pix x y := by
  unfold charAt at hc
  obtain ⟨line, hline, hcell⟩ := Option.bind_eq_some.1 hc
  unfold bgPass
  rw [bgRows_pix_hit tiles t x y ht lines out 0 line (Nat.zero_le _) (by simpa using hline)]
  exact bgRow_pix_hit tiles t (y / t) x y ht line out 0 c (Nat.zero_le _) (by simpa using hcell)

theorem bgPass_pix_miss (tiles : Tiles) (t : Nat) (out : Img) (lines : List (List Char))
    (x y : Nat) (ht : 0 < t)
    (hc : charAt lines (y / t) (x / t) = none) :
    (bgPass tiles t out lines).pix x y = out.pix x y := by
  unfold bgPass
  cases hline : lines.get? (y / t) with
  | none =>
    exact bgRows_pix_miss tiles t x y ht lines out 0 (fun _ => by simpa using hline)
  | some line =>
    have hcell : line.get? (x / t) = none := by
      unfold charAt at hc
      rw [hline] at hc
      simpa using hc
    rw [bgRows_pix_hit tiles t x y ht lines out 0 line (Nat.zero_le _) (by simpa using hline)]
    exact bgRow_pix_miss tiles t (y / t) x y ht line out 0 (fun _ => by simpa using hcell)

/-! ## Claim C3 : sprite cells in the background pass -/

/-- C3: in the background pass, the pixels of a cell whose character is a
designated sprite character equal exactly the sky/background draw applied
to that cell — the cell never receives its own tile and nothing further is
drawn there by the pass (the result is independent of the tile mapped to
the sprite character), leaving the sprite image to the sprite pass alone. -/
theorem bg_pass_sprite_cell (tiles : Tiles) (t : Nat) (out : Img) (lines : List (List Char))
    (x y : Nat) (c : Char) (ht : 0 < t)
    (hc : charAt lines (y / t) (x / t) = some c) (hs : c ∈ SPRITE_CHARS) :
    (bgPass tiles t out lines).pix x y = (drawSkyAt tiles t out (y / t) (x / t)).pix x y := by
  rw [bgPass_pix_hit tiles t out lines x y c ht hc]
  unfold bgCellStep
  rw [if_pos hs]

/-- Witness for C3 at a concrete input: a one-cell grid holding the sprite
character E, with both a sky tile and a sprite tile present. -/
theorem bg_pass_sprite_cell_witness :
    (bgPass skyTiles 1 (imageNew 1 1 skyFill) [['E']]).pix 0 0 =
      (drawSkyAt skyTiles 1 (imageNew 1 1 skyFill) (0 / 1) (0 / 1)).pix 0 0 :=
  bg_pass_sprite_cell skyTiles 1 (imageNew 1 1 skyFill) [['E']] 0 0 'E'
    (by decide) (by rfl) (by decide)

/-! ## Claim C4 : missing columns of short rows -/

/-- C4 counterexample: with a background tile that is not the sky-blue
fill (here a solid red 1 by 1 tile), the pixel of a missing column of a
short row differs from the pixel of an unmapped-character cell: the
missing column keeps the initial fill while the unmapped cell receives the
red background tile, so the two blocks are not equal as the claim states. -/
theorem short_row_block_cex :
    (render_level raggedLevel redTiles 1).pix 1 0 ≠
      (render_level raggedLevel redTiles 1).pix 0 0 := by
  decide

/-- C4 amended: the background pass never draws the missing columns of a
short row (columns from the row's length up to the maximal row length):
after the background pass their pixels are still the image's initial solid
sky-blue fill (135, 206, 235, 255), for every tile set; and whenever the
grid yields no sprite placements (no sprite-character cell with a present
tile image), the fully rendered image keeps that fill there too — only the
sprite pass can touch a missing column, by a sprite overflowing from a
neighboring longer row.  A missing column's block equals the block of an
absent/unmapped-character cell only when the fitted background tile equals
that fill (as with the synthesized placeholder tiles); the counterexample
shows the claimed equality fails for a general background tile. -/
theorem render_short_row_fill (tiles : Tiles) (t : Nat) (s : List Char) (x y : Nat)
    (line : List Char) (ht : 0 < t)
    (hrow : (pySplit '\n' (pyStrip s)).get? (y / t) = some line)
    (hcol : line.length ≤ x / t)
    (_hx : x < maxLen (pySplit '\n' (pyStrip s)) * t) :
    (bgPass tiles t
        (imageNew (maxLen (pySplit '\n' (pyStrip s)) * t)
          ((pySplit '\n' (pyStrip s)).length * t) skyFill)
        (pySplit '\n' (pyStrip s))).pix x y = skyFill
    ∧ (spritePlacements tiles t 0 (pySplit '\n' (pyStrip s)) = [] →
        (render_level s tiles t).pix x y = skyFill) := by
  have hmiss : charAt (pySplit '\n' (pyStrip s)) (y / t) (x / t) = none := by
    unfold charAt
    rw [hrow]
    simp only [Option.some_bind]
    exact List.get?_len_le hcol
  have hbg : (bgPass tiles t
      (imageNew (maxLen (pySplit '\n' (pyStrip s)) * t)
        ((pySplit '\n' (pyStrip s)).length * t) skyFill)
      (pySplit '\n' (pyStrip s))).pix x y = skyFill := by
    rw [bgPass_pix_miss tiles t _ (pySplit '\n' (pyStrip s)) x y ht hmiss]
    rfl
  refine ⟨hbg, fun hspr => ?_⟩
  unfold render_level spritePass
  rw [spriteRows_eq_foldl tiles t (pySplit '\n' (pyStrip s)) _ 0, hspr]
  simp only [List.foldl_nil]
  exact hbg

/-- Witness for the amended C4 at a concrete input: in the ragged level
whose first row is shorter, the missing cell keeps the sky-blue fill after
the background pass, and (the grid having no sprite placements) in the
rendered image as well. -/
theorem render_short_row_fill_witness :
    (bgPass [] 1
        (imageNew (maxLen (pySplit '\n' (pyStrip raggedLevel)) * 1)
          ((pySplit '\n' (pyStrip raggedLevel)).length * 1) skyFill)
        (pySplit '\n' (pyStrip raggedLevel))).pix 1 0 = skyFill
    ∧ (render_level raggedLevel [] 1).pix 1 0 = skyFill :=
  ⟨(render_short_row_fill [] 1 raggedLevel 1 0 ['A'] (by decide) (by rfl) (by decide)
      (by decide)).1,
   (render_short_row_fill [] 1 raggedLevel 1 0 ['A'] (by decide) (by rfl) (by decide)
      (by decide)).2 (by rfl)⟩

/-! ## Claim C10 : rendering without a background tile -/

/-- C10: when the tile set has no entry for the background character, or
maps it to None, the background pass leaves sprite-character cells,
absent-tile cells and unmapped-character cells exactly at the image's
initial solid sky-blue fill (135, 206, 235, 255) instead of pasting a
background tile there; no error is raised (the embedding is total, like
the guarded membership tests of renderer.py lines 166-167 and 183). -/
theorem bg_pass_no_sky_fill (tiles : Tiles) (t : Nat) (lines : List (List Char))
    (x y W H : Nat) (c : Char) (ht : 0 < t)
    (hsky : tiles.lookup '-' = none ∨ tiles.lookup '-' = some none)
    (hc : charAt lines (y / t) (x / t) = some c)
    (hcell : c ∈ SPRITE_CHARS ∨ tiles.lookup c = none ∨ tiles.lookup c = some none) :
    (bgPass tiles t (imageNew W H skyFill) lines).pix x y = skyFill := by
  rw [bgPass_pix_hit tiles t (imageNew W H skyFill) lines x y c ht hc]
  have hsk : ∀ row col, (drawSkyAt tiles t (imageNew W H skyFill) row col).pix x y = skyFill := by
    intro row col
    unfold drawSkyAt
    rcases hsky with h | h <;> (rw [h]; rfl)
  unfold bgCellStep
  rcases hcell with h | h | h
  · rw [if_pos h]; exact hsk _ _
  · by_cases hs : c ∈ SPRITE_CHARS
    · rw [if_pos hs]; exact hsk _ _
    · rw [if_neg hs, h]; exact hsk _ _
  · by_cases hs : c ∈ SPRITE_CHARS
    · rw [if_pos hs]; exact hsk _ _
    · rw [if_neg hs, h]; exact hsk _ _

/-- Witness for C10 at a concrete input: an empty tile set and a one-cell
grid with an unmapped character leaves the cell at the sky-blue fill. -/
theorem bg_pass_no_sky_fill_witness :
    (bgPass [] 1 (imageNew 1 1 skyFill) [['Z']]).pix 0 0 = skyFill :=
  bg_pass_no_sky_fill [] 1 [['Z']] 0 0 1 1 'Z' (by decide) (Or.inl rfl) (by rfl)
    (Or.inr (Or.inl rfl))
